import Mathlib

/-!
Shallow embedding of the BlackjackStatTracker core, translated from the
Python sources:

  * src/advanced_blackjack_game.py  (class AdvancedBlackjackGame)
  * src/blackjack_game.py           (class BlackjackGame, dealer loop only)
  * src/card_counting.py            (class HighLowCounter)
  * src/utils.py                    (calculate_remaining_decks)
  * src/risk_calculator.py          (class RiskOfRuinCalculator)

Modelling conventions:
  * A card is its rank (suits are discarded by the source as well).
  * The shoe is a list of cards in deal order: the Python code pops from the
    end of its list, so drawing the next card is taking the head here.
  * Python floats are modelled by rationals; the one transcendental value
    (math.exp in the risk calculator) is modelled by Real.exp and kept in a
    separate definition so that everything else stays computable.
  * Python dicts are modelled by association lists in insertion order;
    iteration over a dict is iteration over the list, dict.get(k, d) is
    lookup with a default.
  * The mutable running count of HighLowCounter is threaded explicitly as an
    integer argument and result.
  * Python round (round half to even) is modelled by pyRound below.
-/

/-- Card ranks, as in utils.create_deck: suit is dropped, only rank kept. -/
inductive Card where
  | c2 | c3 | c4 | c5 | c6 | c7 | c8 | c9 | c10
  | cJ | cQ | cK | cA
deriving DecidableEq, Repr

/-- High-Low tag of a card (HighLowCounter.CARD_VALUES): 2..6 count +1,
7..9 count 0, and 10/J/Q/K/A count -1. -/
def tag : Card → ℤ
  | .c2 | .c3 | .c4 | .c5 | .c6 => 1
  | .c7 | .c8 | .c9 => 0
  | .c10 | .cJ | .cQ | .cK | .cA => -1

/-- HighLowCounter.add_card folded over a list of dealt cards: the sum of
the tags is added to the running count. -/
def tagSum (cards : List Card) : ℤ :=
  (cards.map tag).sum

/-- AdvancedBlackjackGame.card_value: J/Q/K are 10, an ace is 11 (adjusted
later in hand_value), other cards are their number. -/
def card_value : Card → ℕ
  | .c2 => 2 | .c3 => 3 | .c4 => 4 | .c5 => 5 | .c6 => 6
  | .c7 => 7 | .c8 => 8 | .c9 => 9 | .c10 => 10
  | .cJ => 10 | .cQ => 10 | .cK => 10
  | .cA => 11

/-- The ace-adjustment loop in hand_value: while total > 21 and aces remain,
turn an ace from 11 into 1 (subtract 10). -/
def adjustAces : ℕ → ℕ → ℕ
  | total, 0 => total
  | total, aces + 1 => if 21 < total then adjustAces (total - 10) aces else total

/-- AdvancedBlackjackGame.hand_value: sum card values (aces as 11), then
demote aces from 11 to 1 while the total exceeds 21. The hand_value of
BlackjackGame is the same computation. -/
def hand_value (hand : List Card) : ℕ :=
  adjustAces (hand.map card_value).sum (hand.count Card.cA)

/-- AdvancedBlackjackGame.is_soft_hand: the hand holds an ace and counting
one ace as 11 (all others, aces included, at their hard value) stays at
or below 21. -/
def is_soft_hand (hand : List Card) : Bool :=
  hand.contains Card.cA &&
    decide ((hand.map fun c => if c = Card.cA then 1 else card_value c).sum + 11 ≤ 21)

/-- AdvancedBlackjackGame.is_blackjack: two cards totalling 21. -/
def is_blackjack (hand : List Card) : Bool :=
  hand.length == 2 && hand_value hand == 21

/-- TableRules (AdvancedBlackjackGame.__init__ self.rules). -/
structure TableRules where
  dealer_hits_soft17 : Bool
  double_after_split : Bool
  split_aces : Bool
  resplit_aces : Bool
  surrender_allowed : Bool
  max_splits : ℕ
  blackjack_pays : ℚ
deriving DecidableEq, Repr

/-- The default table rules of AdvancedBlackjackGame.__init__. -/
def defaultRules : TableRules :=
  { dealer_hits_soft17 := false
    double_after_split := true
    split_aces := true
    resplit_aces := false
    surrender_allowed := true
    max_splits := 3
    blackjack_pays := 3 / 2 }

/-- AdvancedBlackjackGame.can_split: exactly two cards of equal blackjack
value (all ten-valued cards match each other); a pair of aces additionally
requires the split_aces rule. -/
def can_split_hand (rules : TableRules) (hand : List Card) : Bool :=
  match hand with
  | [card1, card2] =>
    let value1 := card_value card1
    let value2 := card_value card2
    if value1 ≠ value2 then false
    else if card1 = Card.cA ∧ card2 = Card.cA then rules.split_aces
    else true
  | _ => false

/-- The five possible outcomes of basic_strategy_decision. -/
inductive Decision where
  | hit | stand | double | split | surrender
deriving DecidableEq, Repr

/-- AdvancedBlackjackGame.basic_strategy_decision, translated branch for
branch: surrender check first, then pairs, then soft hands, then hard
totals, with stand as the final default. -/
def basic_strategy_decision (rules : TableRules) (player_hand : List Card)
    (dealer_up_card : Card) (can_double can_split can_surrender : Bool) :
    Decision :=
  let player_total := hand_value player_hand
  let dealer_value := card_value dealer_up_card
  if can_surrender ∧ rules.surrender_allowed ∧ player_hand.length = 2 ∧
      ((player_total = 16 ∧ (dealer_value = 9 ∨ dealer_value = 10 ∨ dealer_value = 11)) ∨
        (player_total = 15 ∧ dealer_value = 10)) then
    .surrender
  else if can_split ∧ can_split_hand rules player_hand then
    match player_hand.head? with
    | some Card.cA => .split
    | some Card.c8 => .split
    | some Card.c2 =>
      if 2 ≤ dealer_value ∧ dealer_value ≤ 7 then .split else .hit
    | some Card.c3 =>
      if 2 ≤ dealer_value ∧ dealer_value ≤ 7 then .split else .hit
    | some Card.c4 => .hit
    | some Card.c5 =>
      if can_double ∧ dealer_value ≤ 9 then .double else .hit
    | some Card.c6 =>
      if 2 ≤ dealer_value ∧ dealer_value ≤ 6 then .split else .hit
    | some Card.c7 =>
      if 2 ≤ dealer_value ∧ dealer_value ≤ 7 then .split else .hit
    | some Card.c9 =>
      if dealer_value = 7 ∨ dealer_value = 10 ∨ dealer_value = 11 then .stand
      else .split
    | some Card.c10 | some Card.cJ | some Card.cQ | some Card.cK => .stand
    | none => .stand
  else if is_soft_hand player_hand then
    let soft_value := player_total - 11
    if soft_value ≤ 2 then
      if (dealer_value = 5 ∨ dealer_value = 6) ∧ can_double then .double else .hit
    else if soft_value = 3 then
      if (dealer_value = 5 ∨ dealer_value = 6) ∧ can_double then .double else .hit
    else if soft_value = 4 then
      if (dealer_value = 4 ∨ dealer_value = 5 ∨ dealer_value = 6) ∧ can_double then .double
      else .hit
    else if soft_value = 5 then
      if (dealer_value = 4 ∨ dealer_value = 5 ∨ dealer_value = 6) ∧ can_double then .double
      else .hit
    else if soft_value = 6 then
      if (3 ≤ dealer_value ∧ dealer_value ≤ 6) ∧ can_double then .double else .hit
    else if soft_value = 7 then
      if (3 ≤ dealer_value ∧ dealer_value ≤ 6) ∧ can_double then .double
      else if dealer_value = 2 ∨ dealer_value = 7 ∨ dealer_value = 8 then .stand
      else .hit
    else .stand
  else
    if player_total ≤ 8 then .hit
    else if player_total = 9 then
      if (3 ≤ dealer_value ∧ dealer_value ≤ 6) ∧ can_double then .double else .hit
    else if player_total = 10 then
      if dealer_value ≤ 9 ∧ can_double then .double else .hit
    else if player_total = 11 then
      if can_double then .double else .hit
    else if player_total = 12 then
      if dealer_value = 4 ∨ dealer_value = 5 ∨ dealer_value = 6 then .stand else .hit
    else if 13 ≤ player_total ∧ player_total ≤ 16 then
      if dealer_value ≤ 6 then .stand else .hit
    else .stand

/-- Python round: round half to even (banker rounding), on rationals.
The floor of q is written q.num / q.den (equal to the mathematical floor,
Rat.floor_def) to keep the definition kernel-computable. -/
def pyRound (q : ℚ) : ℤ :=
  if q - (q.num / (q.den : ℤ) : ℤ) < 1 / 2 then q.num / (q.den : ℤ)
  else if 1 / 2 < q - (q.num / (q.den : ℤ) : ℤ) then q.num / (q.den : ℤ) + 1
  else if q.num / (q.den : ℤ) % 2 = 0 then q.num / (q.den : ℤ)
  else q.num / (q.den : ℤ) + 1

/-- pyRound written with the mathematical floor. -/
theorem pyRound_eq_floor_form (q : ℚ) :
    pyRound q =
      if q - ⌊q⌋ < 1 / 2 then ⌊q⌋
      else if 1 / 2 < q - ⌊q⌋ then ⌊q⌋ + 1
      else if ⌊q⌋ % 2 = 0 then ⌊q⌋ else ⌊q⌋ + 1 := by
  unfold pyRound
  simp only [← Rat.floor_def]

/-- A bet spread: the six buckets of the bet_spread dict. The source reads
the dict with spread.get and per-bucket defaults; a spread value object with
all six buckets present models any spread the claims mention. -/
structure BetSpread where
  tc_neg : ℚ
  tc_1 : ℚ
  tc_2 : ℚ
  tc_3 : ℚ
  tc_4 : ℚ
  tc_5plus : ℚ
deriving DecidableEq, Repr

/-- AdvancedBlackjackGame.get_bet_amount: round the true count, then bucket
it: at most 0 gives tc_neg, 1 to 4 map directly, 5 and above give
tc_5plus. -/
def get_bet_amount (true_count : ℚ) (bet_spread : BetSpread) : ℚ :=
  if pyRound true_count ≤ 0 then bet_spread.tc_neg
  else if pyRound true_count = 1 then bet_spread.tc_1
  else if pyRound true_count = 2 then bet_spread.tc_2
  else if pyRound true_count = 3 then bet_spread.tc_3
  else if pyRound true_count = 4 then bet_spread.tc_4
  else bet_spread.tc_5plus

/-- AdvancedBlackjackGame.play_dealer_hand. The loop stands once the total
reaches 17, except that a soft 17 is hit again when dealer_hits_soft17 is
set; otherwise it draws a card (counting it) and repeats, stopping when the
shoe is empty. Returns the final dealer hand, the remaining shoe and the
updated running count. -/
def play_dealer_hand (rules : TableRules) (dealer_hand : List Card) :
    List Card → ℤ → List Card × List Card × ℤ
  | [], rc => (dealer_hand, [], rc)
  | c :: rest, rc =>
    let dealer_total := hand_value dealer_hand
    if 17 ≤ dealer_total ∧
        ¬(dealer_total = 17 ∧ is_soft_hand dealer_hand ∧ rules.dealer_hits_soft17) then
      (dealer_hand, c :: rest, rc)
    else
      play_dealer_hand rules (dealer_hand ++ [c]) rest (rc + tag c)

/-- The dealer loop of BlackjackGame.play_hand (the simple engine): hit
while the total is below 17, stopping early when the shoe is empty. -/
def play_dealer_simple (dealer_hand : List Card) :
    List Card → ℤ → List Card × List Card × ℤ
  | [], rc => (dealer_hand, [], rc)
  | c :: rest, rc =>
    if hand_value dealer_hand < 17 then
      play_dealer_simple (dealer_hand ++ [c]) rest (rc + tag c)
    else
      (dealer_hand, c :: rest, rc)

/-- AdvancedBlackjackGame.play_hand_recursive. One recursive call models
one pass through the while loop (the loop state is the hand, shoe and
running count; the wager only changes on the double exit). Returns
(profit, wagered, final parent hand, remaining shoe, running count); the
parent hand is returned because the Python code mutates the caller's hand
list in place with hits, while the split branch leaves it untouched.

The fuel argument only drives the recursion: every recursive call first
removes at least one card from the shoe, so fuel = shoe.length + 1 (what
play_hand passes) can never run out; the fuel-exhausted branch is
unreachable from play_hand. -/
def play_hand_recursive (rules : TableRules) :
    ℕ → List Card → Card → List Card → ℤ → ℚ → ℕ →
    ℚ × ℚ × List Card × List Card × ℤ
  | 0, hand, _, shoe, rc, bet, _ => (0, bet, hand, shoe, rc)
  | fuel + 1, hand, dealer_up, shoe, rc, bet, split_depth =>
    if hand.length = 2 ∧ split_depth = 0 ∧ is_blackjack hand then
      (bet * rules.blackjack_pays, bet, hand, shoe, rc)
    else
      let player_total := hand_value hand
      if 21 < player_total then (-bet, bet, hand, shoe, rc)
      else if player_total = 21 then (0, bet, hand, shoe, rc)
      else if 0 < split_depth ∧ 2 ≤ hand.length ∧ hand.head? = some Card.cA ∧
          ¬rules.resplit_aces then
        -- stand after receiving one card to a split ace
        (0, bet, hand, shoe, rc)
      else
        let can_double : Bool :=
          (hand.length == 2 && !shoe.isEmpty) &&
            !(decide (0 < split_depth) && !rules.double_after_split)
        let can_split : Bool :=
          can_split_hand rules hand && decide (split_depth < rules.max_splits) &&
            decide (1 < shoe.length)
        let can_surrender : Bool :=
          hand.length == 2 && split_depth == 0 && rules.surrender_allowed
        match basic_strategy_decision rules hand dealer_up can_double can_split
            can_surrender with
        | .hit =>
          match shoe with
          | [] => (0, bet, hand, shoe, rc)
          | c :: rest =>
            play_hand_recursive rules fuel (hand ++ [c]) dealer_up rest
              (rc + tag c) bet split_depth
        | .double =>
          match shoe with
          | [] => (0, bet, hand, shoe, rc)
          | c :: rest => (0, bet * 2, hand ++ [c], rest, rc + tag c)
        | .split =>
          match hand, shoe with
          | [card1, card2], new_card1 :: new_card2 :: rest =>
            let hand1 := [card1, new_card1]
            let hand2 := [card2, new_card2]
            let rc2 := rc + tag new_card1 + tag new_card2
            let (result1, wagered1, _, shoe1, rca) :=
              play_hand_recursive rules fuel hand1 dealer_up rest rc2 bet
                (split_depth + 1)
            let (result2, wagered2, _, shoe2, rcb) :=
              play_hand_recursive rules fuel hand2 dealer_up shoe1 rca bet
                (split_depth + 1)
            (result1 + result2, wagered1 + wagered2, hand, shoe2, rcb)
          | _, _ => (0, bet, hand, shoe, rc)
        | .surrender => (-bet / 2, bet, hand, shoe, rc)
        | .stand => (0, bet, hand, shoe, rc)

/-- The burn loop of AdvancedBlackjackGame.play_hand for a sit-out: pop and
count the given number of cards, stopping early on an empty shoe. -/
def burnCards : ℕ → List Card → ℤ → List Card × ℤ
  | 0, shoe, rc => (shoe, rc)
  | _ + 1, [], rc => ([], rc)
  | n + 1, c :: rest, rc => burnCards n rest (rc + tag c)

/-- AdvancedBlackjackGame.play_hand. Returns (profit, wagered, remaining
shoe, running count). Under 10 cards nothing happens; a bet of 0 burns
min(4, shoe size) cards through the counter and wagers nothing; otherwise
four cards are dealt (player, player, dealer up, dealer hole), blackjacks
are settled, the player hand is played recursively, and a still-open result
is settled by playing the dealer hand and comparing the totals of the
(possibly mutated) parent player hand and the dealer hand. -/
def play_hand (rules : TableRules) (shoe : List Card) (true_count : ℚ)
    (rc : ℤ) (bet_spread : BetSpread) : ℚ × ℚ × List Card × ℤ :=
  if shoe.length < 10 then (0, 0, shoe, rc)
  else
    let bet_amount := get_bet_amount true_count bet_spread
    if bet_amount = 0 then
      let burned := burnCards (min 4 shoe.length) shoe rc
      (0, 0, burned.1, burned.2)
    else
      match shoe with
      | p1 :: p2 :: d1 :: d2 :: rest =>
        let rc1 := rc + tag p1 + tag p2 + tag d1 + tag d2
        let player_hand := [p1, p2]
        let dealer_hand := [d1, d2]
        let dealer_up_card := d1
        if is_blackjack dealer_hand ∧ is_blackjack player_hand then
          (0, bet_amount, rest, rc1)
        else if is_blackjack dealer_hand then (-bet_amount, bet_amount, rest, rc1)
        else if is_blackjack player_hand then
          (bet_amount * rules.blackjack_pays, bet_amount, rest, rc1)
        else
          let (player_result, total_wagered, player_final, shoe1, rc2) :=
            play_hand_recursive rules (rest.length + 1) player_hand
              dealer_up_card rest rc1 bet_amount 0
          if player_result ≠ 0 ∨ 21 < hand_value player_final then
            (player_result, total_wagered, shoe1, rc2)
          else
            let (dealer_final, shoe2, rc3) :=
              play_dealer_hand rules dealer_hand shoe1 rc2
            let player_total := hand_value player_final
            let dealer_total := hand_value dealer_final
            if 21 < dealer_total then (total_wagered, total_wagered, shoe2, rc3)
            else if dealer_total < player_total then
              (total_wagered, total_wagered, shoe2, rc3)
            else if player_total < dealer_total then
              (-total_wagered, total_wagered, shoe2, rc3)
            else (0, total_wagered, shoe2, rc3)
      | _ => (0, 0, shoe, rc)

/-- utils.calculate_remaining_decks: cards left over 52, floored at half a
deck to avoid division blow-up. -/
def calculate_remaining_decks (remaining_cards : ℕ) : ℚ :=
  max (1 / 2) ((remaining_cards : ℚ) / 52)

/-- HighLowCounter.get_true_count: zero for a non-positive decks value,
otherwise the rounded quotient of running count by remaining decks. -/
def get_true_count (running_count : ℤ) (remaining_decks : ℚ) : ℤ :=
  if remaining_decks ≤ 0 then 0
  else pyRound ((running_count : ℚ) / remaining_decks)

/-- HighLowCounter.get_true_count_precise: the unrounded quotient, zero for
a non-positive decks value. -/
def get_true_count_precise (running_count : ℤ) (remaining_decks : ℚ) : ℚ :=
  if remaining_decks ≤ 0 then 0
  else (running_count : ℚ) / remaining_decks

/-! ## Risk of ruin calculator (src/risk_calculator.py) -/

/-- The errors RiskOfRuinCalculator.calculate_ror can raise: the three
validation ValueErrors of _validate_inputs (each message is one
constructor; the missing-key errors carry the offending true count, as the
message text does), and the math-domain ValueError that
sd_per_hand = math.sqrt(variance_per_hand) raises when the weighted
variance is negative. -/
inductive RoRError where
  | bankrollNotPositive
  | emptyFrequencies
  | missingEdge (tc : ℤ)
  | missingBetSize (tc : ℤ)
  | mathDomainError
deriving DecidableEq, Repr

/-- dict.get(tc, 0.0) on an association-list dict. -/
def dget (d : List (ℤ × ℚ)) (tc : ℤ) : ℚ :=
  (d.lookup tc).getD 0

/-- Sum of the values of a dict (sum(d.values())). -/
def dictValuesSum (d : List (ℤ × ℚ)) : ℚ :=
  (d.map Prod.snd).sum

/-- The missing-key loop at the end of _validate_inputs: walk the frequency
keys in order; the first key with no edge entry raises missingEdge, then a
key with no bet-size entry raises missingBetSize; none means all present. -/
def checkKeys (tc_edges tc_bet_sizes : List (ℤ × ℚ)) :
    List (ℤ × ℚ) → Option RoRError
  | [] => none
  | (tc, _) :: rest =>
    match tc_edges.lookup tc with
    | none => some (.missingEdge tc)
    | some _ =>
      match tc_bet_sizes.lookup tc with
      | none => some (.missingBetSize tc)
      | some _ => checkKeys tc_edges tc_bet_sizes rest

/-- RiskOfRuinCalculator._validate_inputs. Returns the error raised (if
any) together with the state of the caller's tc_frequencies dict after the
call: the dict is normalized in place (each value divided by the total)
whenever the bankroll and emptiness checks pass and the total is positive,
even when a missing-key error is raised afterwards. The normalization block
of _validate_inputs is the separate definition normalizeFreqs. -/
def normalizeFreqs (tc_frequencies : List (ℤ × ℚ)) : List (ℤ × ℚ) :=
  if 0 < dictValuesSum tc_frequencies then
    tc_frequencies.map fun p => (p.1, p.2 / dictValuesSum tc_frequencies)
  else tc_frequencies

/-- RiskOfRuinCalculator._validate_inputs, see normalizeFreqs above: the
returned list is the caller's dict after the call. -/
def validate_inputs (tc_frequencies tc_edges tc_bet_sizes : List (ℤ × ℚ))
    (bankroll : ℚ) : Option RoRError × List (ℤ × ℚ) :=
  if bankroll ≤ 0 then (some .bankrollNotPositive, tc_frequencies)
  else if tc_frequencies = [] then (some .emptyFrequencies, tc_frequencies)
  else
    (checkKeys tc_edges tc_bet_sizes (normalizeFreqs tc_frequencies),
      normalizeFreqs tc_frequencies)

/-- RiskOfRuinCalculator._calculate_weighted_ev: the loop accumulates
frequency times edge times bet size over the frequency dict (missing edge
or bet entries default to 0 through dict.get). -/
def calculate_weighted_ev (tc_frequencies tc_edges tc_bet_sizes :
    List (ℤ × ℚ)) : ℚ :=
  (tc_frequencies.map fun p => p.2 * dget tc_edges p.1 * dget tc_bet_sizes p.1).sum

/-- RiskOfRuinCalculator._calculate_weighted_variance: the loop accumulates
frequency times (bet size times base_sd_per_unit) squared. -/
def calculate_weighted_variance (base_sd_per_unit : ℚ)
    (tc_frequencies tc_bet_sizes : List (ℤ × ℚ)) : ℚ :=
  (tc_frequencies.map fun p => p.2 * (dget tc_bet_sizes p.1 * base_sd_per_unit) ^ 2).sum

/-- The rational-valued part of the result dict of calculate_ror. The
transcendental entries (risk_of_ruin_exponential, the normal-approximation
estimate and the standard deviation, which need exp, erfc and sqrt) are
modelled as separate functions of this core; is_positive_ev is the
derived test 0 < expected_value_per_hand. -/
structure RoRCore where
  expected_value_per_hand : ℚ
  variance_per_hand : ℚ
  kelly_fraction : ℚ
  average_bet_size : ℚ
  bankroll_in_units : ℚ
deriving DecidableEq, Repr

/-- RiskOfRuinCalculator.calculate_ror: validate (normalizing the caller's
frequency dict in place), then compute the weighted expected value and
weighted variance from the normalized frequencies. The next line of the
source, sd_per_hand = math.sqrt(variance_per_hand), raises a ValueError
(math domain error) when the variance is negative — possible for
frequency dicts with mixed-sign values — so the call yields no result
there; that raise is the mathDomainError branch. Otherwise the Kelly
fraction and average bet size are computed and the result returned,
together with the final state of the caller's frequency dict (the dict
state is the same on every path after validation). -/
def calculate_ror (base_sd_per_unit : ℚ)
    (tc_frequencies tc_edges tc_bet_sizes : List (ℤ × ℚ)) (bankroll : ℚ) :
    Except RoRError RoRCore × List (ℤ × ℚ) :=
  match validate_inputs tc_frequencies tc_edges tc_bet_sizes bankroll with
  | (some e, f) => (.error e, f)
  | (none, f) =>
    let ev_per_hand := calculate_weighted_ev f tc_edges tc_bet_sizes
    let variance_per_hand :=
      calculate_weighted_variance base_sd_per_unit f tc_bet_sizes
    if variance_per_hand < 0 then (.error .mathDomainError, f)
    else
      let kelly_fraction :=
        if 0 < variance_per_hand then ev_per_hand / variance_per_hand else 0
      let avg_bet_size := (f.map fun p => p.2 * dget tc_bet_sizes p.1).sum
      (.ok { expected_value_per_hand := ev_per_hand
             variance_per_hand := variance_per_hand
             kelly_fraction := kelly_fraction
             average_bet_size := avg_bet_size
             bankroll_in_units := bankroll }, f)

/-- The risk_of_ruin_exponential entry of the result dict: when the
variance is positive and the expected value nonzero it is
exp(-2 bankroll EV / variance); otherwise 1.0 for a non-positive expected
value and 0.0 for a positive one. -/
noncomputable def risk_of_ruin_exponential (r : RoRCore) : ℝ :=
  if 0 < r.variance_per_hand ∧ r.expected_value_per_hand ≠ 0 then
    Real.exp ((((-2) * r.bankroll_in_units * r.expected_value_per_hand /
      r.variance_per_hand : ℚ) : ℝ))
  else if r.expected_value_per_hand ≤ 0 then 1 else 0

/-- The standard_deviation_per_hand entry of the result dict:
math.sqrt(variance_per_hand). On every result calculate_ror actually
returns the variance is nonnegative (the mathDomainError branch models
the ValueError raised otherwise), so the square root is the real one. -/
noncomputable def standard_deviation_per_hand (r : RoRCore) : ℝ :=
  Real.sqrt (r.variance_per_hand : ℝ)

/-! ## Shared concrete data for the claims -/

/-- The concrete bet spread used by the spec scenarios:
tc_neg 0, tc_1 5, tc_2 10, tc_3 15, tc_4 25, tc_5plus 25. -/
def exampleSpread : BetSpread :=
  { tc_neg := 0, tc_1 := 5, tc_2 := 10, tc_3 := 15, tc_4 := 25, tc_5plus := 25 }

/-- A 12-card shoe, in deal order, driving play_hand into the split path:
player 9,9; dealer 6 up and 10 in the hole; the two split hands each draw
an ace (both stand at 20); the dealer draws a 3 (finishing at 19); the
five 2s are never dealt. -/
def shoeC2 : List Card :=
  [.c9, .c9, .c6, .c10, .cA, .cA, .c3, .c2, .c2, .c2, .c2, .c2]

/-! ## Helper lemmas -/

theorem floor_le_pyRound (q : ℚ) : ⌊q⌋ ≤ pyRound q := by
  rw [pyRound_eq_floor_form]
  split_ifs <;> omega

theorem pyRound_le_floor_succ (q : ℚ) : pyRound q ≤ ⌊q⌋ + 1 := by
  rw [pyRound_eq_floor_form]
  split_ifs <;> omega

theorem pyRound_mono {x y : ℚ} (hxy : x ≤ y) : pyRound x ≤ pyRound y := by
  have hf : ⌊x⌋ ≤ ⌊y⌋ := Int.floor_mono hxy
  rcases lt_or_eq_of_le hf with hlt | heq
  · have h1 := pyRound_le_floor_succ x
    have h2 := floor_le_pyRound y
    omega
  · have hq : ((⌊x⌋ : ℚ)) = ((⌊y⌋ : ℚ)) := by exact_mod_cast heq
    rw [pyRound_eq_floor_form, pyRound_eq_floor_form]
    split_ifs <;> first | omega | (exfalso; linarith)

theorem one_le_pyRound {x : ℚ} (hx : 1 ≤ x) : 1 ≤ pyRound x := by
  have h1 : (1 : ℤ) ≤ ⌊x⌋ := by
    exact_mod_cast Int.le_floor.mpr (by exact_mod_cast hx)
  have h2 := floor_le_pyRound x
  omega

theorem burnCards_eq (n : ℕ) (shoe : List Card) (rc : ℤ) (h : n ≤ shoe.length) :
    burnCards n shoe rc = (shoe.drop n, rc + tagSum (shoe.take n)) := by
  induction n generalizing shoe rc with
  | zero => simp [burnCards, tagSum]
  | succ m ih =>
    cases shoe with
    | nil => simp at h
    | cons c rest =>
      simp only [List.length_cons, Nat.succ_le_succ_iff] at h
      rw [burnCards, ih rest (rc + tag c) h]
      simp [tagSum]
      ring

/-! ## Claim C3 -/

/-- C3: for every remaining-decks value produced by the deal pipeline
(utils.calculate_remaining_decks), the value is floored at half a deck (so
it is never 0 and at least 1/2), and both true-count forms of the counting
engine equal the running count divided by max(remaining_decks, 1/2): the
precise form is the exact quotient and the rounded form is its Python
rounding. -/
theorem c3_true_count_is_floored_quotient (remaining_cards : ℕ) (running_count : ℤ) :
    1 / 2 ≤ calculate_remaining_decks remaining_cards ∧
    get_true_count_precise running_count (calculate_remaining_decks remaining_cards) =
      (running_count : ℚ) / max (calculate_remaining_decks remaining_cards) (1 / 2) ∧
    get_true_count running_count (calculate_remaining_decks remaining_cards) =
      pyRound ((running_count : ℚ) /
        max (calculate_remaining_decks remaining_cards) (1 / 2)) := by
  have hge : 1 / 2 ≤ calculate_remaining_decks remaining_cards := le_max_left _ _
  have hmax : max (calculate_remaining_decks remaining_cards) (1 / 2) =
      calculate_remaining_decks remaining_cards := max_eq_left hge
  have hpos : ¬ calculate_remaining_decks remaining_cards ≤ 0 := by
    intro h; linarith
  refine ⟨hge, ?_, ?_⟩
  · rw [get_true_count_precise, if_neg hpos, hmax]
  · rw [get_true_count, if_neg hpos, hmax]

/-! ## Claim C4 -/

/-- C4 counterexample: with can_surrender set (and surrender allowed by the
default rules), the decision for a pair of 8s against a dealer 10 is
surrender, not split: the surrender eligibility check (total 16 against
dealer 10) runs before the pair-splitting check and returns first. -/
theorem c4_counterexample :
    basic_strategy_decision defaultRules [Card.c8, Card.c8] Card.c10
      true true true = Decision.surrender ∧
    Decision.surrender ≠ Decision.split := by
  decide

/-- C4 amended: the decision on [8,8] against dealer 10 with can_split set
is split for every setting of can_double, provided can_surrender is off;
with can_surrender on, the surrender check (total 16 against dealer 10)
fires first and the decision is surrender for every setting of
can_double. -/
theorem c4_amended_split_eights (can_double : Bool) :
    basic_strategy_decision defaultRules [Card.c8, Card.c8] Card.c10
      can_double true false = Decision.split ∧
    basic_strategy_decision defaultRules [Card.c8, Card.c8] Card.c10
      can_double true true = Decision.surrender := by
  cases can_double <;> decide

/-! ## Claim C9 -/

/-- C9: both dealer loops terminate (they are structurally recursive on
the shoe here, mirroring that every continuing iteration removes one card
from the finite shoe), and on termination the dealer total is at least 17,
or above 21, or the shoe has been exhausted. The first conjunct is the
advanced engine (play_dealer_hand), the second the simple engine
(BlackjackGame.play_hand dealer loop). -/
theorem c9_dealer_loop_terminal (rules : TableRules) (hand shoe : List Card) (rc : ℤ) :
    (17 ≤ hand_value (play_dealer_hand rules hand shoe rc).1 ∨
      21 < hand_value (play_dealer_hand rules hand shoe rc).1 ∨
      (play_dealer_hand rules hand shoe rc).2.1 = []) ∧
    (17 ≤ hand_value (play_dealer_simple hand shoe rc).1 ∨
      21 < hand_value (play_dealer_simple hand shoe rc).1 ∨
      (play_dealer_simple hand shoe rc).2.1 = []) := by
  constructor
  · induction shoe generalizing hand rc with
    | nil => right; right; rfl
    | cons c rest ih =>
      rw [play_dealer_hand]
      split_ifs with h
      · left; exact h.1
      · exact ih (hand ++ [c]) (rc + tag c)
  · induction shoe generalizing hand rc with
    | nil => right; right; rfl
    | cons c rest ih =>
      rw [play_dealer_simple]
      split_ifs with h
      · exact ih (hand ++ [c]) (rc + tag c)
      · left; dsimp only; omega

/-! ## Claim C7 -/

/-- C7: get_bet_amount rounds the true count to the nearest integer and
buckets it (at most 0 gives tc_neg, 1 to 4 map directly, 5 and above give
tc_5plus); it is monotonically non-decreasing in the true count from 1
upward whenever the bucket values are sorted ascending; and on the
concrete spread 0/5/10/15/25/25 it returns 0, 5, 10 and 25 for true
counts 0, 1, 2 and 6. -/
theorem c7_bet_amount_buckets_and_monotone :
    (∀ (tc : ℚ) (s : BetSpread),
      (pyRound tc ≤ 0 → get_bet_amount tc s = s.tc_neg) ∧
      (pyRound tc = 1 → get_bet_amount tc s = s.tc_1) ∧
      (pyRound tc = 2 → get_bet_amount tc s = s.tc_2) ∧
      (pyRound tc = 3 → get_bet_amount tc s = s.tc_3) ∧
      (pyRound tc = 4 → get_bet_amount tc s = s.tc_4) ∧
      (5 ≤ pyRound tc → get_bet_amount tc s = s.tc_5plus)) ∧
    (∀ (s : BetSpread) (x y : ℚ),
      s.tc_neg ≤ s.tc_1 → s.tc_1 ≤ s.tc_2 → s.tc_2 ≤ s.tc_3 →
      s.tc_3 ≤ s.tc_4 → s.tc_4 ≤ s.tc_5plus →
      1 ≤ x → x ≤ y → get_bet_amount x s ≤ get_bet_amount y s) ∧
    (get_bet_amount 0 exampleSpread = 0 ∧ get_bet_amount 1 exampleSpread = 5 ∧
      get_bet_amount 2 exampleSpread = 10 ∧ get_bet_amount 6 exampleSpread = 25) := by
  refine ⟨?_, ?_, by with_unfolding_all decide⟩
  · intro tc s
    refine ⟨?_, ?_, ?_, ?_, ?_, ?_⟩ <;> intro h <;>
      (unfold get_bet_amount; split_ifs <;> first | rfl | omega)
  · intro s x y h01 h12 h23 h34 h45 hx hxy
    have hrx : 1 ≤ pyRound x := one_le_pyRound hx
    have hr : pyRound x ≤ pyRound y := pyRound_mono hxy
    unfold get_bet_amount
    split_ifs <;> first | rfl | omega | linarith

/-- C7 witness: the monotonicity conjunct applied at the concrete spread
with true counts 3 and 6, and the bucket conjunct at true count 0. -/
theorem c7_witness :
    get_bet_amount 3 exampleSpread ≤ get_bet_amount 6 exampleSpread ∧
    get_bet_amount 0 exampleSpread = exampleSpread.tc_neg :=
  ⟨c7_bet_amount_buckets_and_monotone.2.1 exampleSpread 3 6
      (by with_unfolding_all decide) (by with_unfolding_all decide)
      (by with_unfolding_all decide) (by with_unfolding_all decide)
      (by with_unfolding_all decide) (by norm_num) (by norm_num),
    (c7_bet_amount_buckets_and_monotone.1 0 exampleSpread).1
      (by with_unfolding_all decide)⟩

/-! ## Claim C8 -/

/-- C8: for every shoe of at least 10 cards and every true count whose
mapped bet amount is 0, play_hand returns profit 0 and wager 0, removes
exactly the first 4 cards of the shoe and adds exactly their High-Low tags
to the running count; the rest of the state is untouched (the returned
shoe is the input shoe minus those 4 cards, and play_hand touches no
per-true-count statistics). -/
theorem c8_sit_out_burns_four (rules : TableRules) (shoe : List Card)
    (true_count : ℚ) (rc : ℤ) (bet_spread : BetSpread)
    (hlen : 10 ≤ shoe.length) (hbet : get_bet_amount true_count bet_spread = 0) :
    play_hand rules shoe true_count rc bet_spread =
      (0, 0, shoe.drop 4, rc + tagSum (shoe.take 4)) := by
  unfold play_hand
  rw [if_neg (by omega : ¬ shoe.length < 10), hbet, if_pos rfl,
    min_eq_left (by omega : 4 ≤ shoe.length),
    burnCards_eq 4 shoe rc (by omega)]

/-- C8 witness: a 10-card shoe of 2s at true count 0 under the concrete
spread (bet 0): the first four cards are burned and counted, nothing is
wagered. -/
theorem c8_witness :
    play_hand defaultRules (List.replicate 10 Card.c2) 0 0 exampleSpread =
      (0, 0, (List.replicate 10 Card.c2).drop 4,
        0 + tagSum ((List.replicate 10 Card.c2).take 4)) :=
  c8_sit_out_burns_four defaultRules (List.replicate 10 Card.c2) 0 0
    exampleSpread (by decide) (by with_unfolding_all decide)

/-! ## Claim C2 -/

/-- C2: evaluation of play_hand at the failing input shoeC2 (bet 5 at true
count 1 under the concrete spread). The strategy splits the pair of 9s
against the dealer 6; each split hand draws an ace and stands at 20, and
the dealer finishes at 19, so under the specified resolution each split
hand should win its wager (+10 in total). The code instead returns the
loss of both wagers (-10): the split sub-hands are never compared against
the dealer (their recursive results are 0), and play_hand compares the
parent pair hand, still [9,9] with total 18, against the dealer total
19. -/
theorem c2_split_settled_against_parent_hand :
    play_hand defaultRules shoeC2 1 0 exampleSpread =
      (-10, 10, [Card.c2, Card.c2, Card.c2, Card.c2, Card.c2], -1) ∧
    hand_value [Card.c9, Card.cA] = 20 ∧
    hand_value [Card.c9, Card.c9] = 18 ∧
    (play_dealer_hand defaultRules [Card.c6, Card.c10]
      [Card.c3, Card.c2, Card.c2, Card.c2, Card.c2, Card.c2] 0).1 =
      [Card.c6, Card.c10, Card.c3] ∧
    hand_value [Card.c6, Card.c10, Card.c3] = 19 := by
  with_unfolding_all decide

/-! ## Risk calculator lemmas -/

theorem checkKeys_eq_none_iff (edges bets l : List (ℤ × ℚ)) :
    checkKeys edges bets l = none ↔
      ∀ p ∈ l, (edges.lookup p.1).isSome ∧ (bets.lookup p.1).isSome := by
  induction l with
  | nil => simp [checkKeys]
  | cons hd tl ih =>
    obtain ⟨tc, f⟩ := hd
    rw [checkKeys]
    cases he : edges.lookup tc with
    | none =>
      constructor
      · intro h; exact absurd h (by simp)
      · intro h
        have hs := (h (tc, f) (by simp)).1
        rw [he] at hs
        simp at hs
    | some e =>
      cases hb : bets.lookup tc with
      | none =>
        constructor
        · intro h; exact absurd h (by simp)
        · intro h
          have hs := (h (tc, f) (by simp)).2
          rw [hb] at hs
          simp at hs
      | some b =>
        rw [ih]
        constructor
        · intro h p hp
          rcases List.mem_cons.mp hp with heq | hp2
          · subst heq
            exact ⟨by rw [he]; rfl, by rw [hb]; rfl⟩
          · exact h p hp2
        · intro h p hp
          exact h p (List.mem_cons_of_mem _ hp)

theorem checkKeys_missingEdge {edges bets l : List (ℤ × ℚ)} {tc : ℤ}
    (h : checkKeys edges bets l = some (.missingEdge tc)) :
    (∃ p ∈ l, p.1 = tc) ∧ edges.lookup tc = none := by
  induction l with
  | nil => simp [checkKeys] at h
  | cons hd tl ih =>
    obtain ⟨k, f⟩ := hd
    rw [checkKeys] at h
    cases he : edges.lookup k with
    | none =>
      rw [he] at h
      obtain rfl : k = tc := by
        simpa using h
      exact ⟨⟨(k, f), by simp⟩, he⟩
    | some e =>
      rw [he] at h
      cases hb : bets.lookup k with
      | none => rw [hb] at h; simp at h
      | some b =>
        rw [hb] at h
        obtain ⟨hm, hl⟩ := ih h
        obtain ⟨p, hp, hptc⟩ := hm
        exact ⟨⟨p, by simp [hp], hptc⟩, hl⟩

theorem checkKeys_missingBetSize {edges bets l : List (ℤ × ℚ)} {tc : ℤ}
    (h : checkKeys edges bets l = some (.missingBetSize tc)) :
    (∃ p ∈ l, p.1 = tc) ∧ bets.lookup tc = none := by
  induction l with
  | nil => simp [checkKeys] at h
  | cons hd tl ih =>
    obtain ⟨k, f⟩ := hd
    rw [checkKeys] at h
    cases he : edges.lookup k with
    | none => rw [he] at h; simp at h
    | some e =>
      rw [he] at h
      cases hb : bets.lookup k with
      | none =>
        rw [hb] at h
        obtain rfl : k = tc := by
          simpa using h
        exact ⟨⟨(k, f), by simp⟩, hb⟩
      | some b =>
        rw [hb] at h
        obtain ⟨hm, hl⟩ := ih h
        obtain ⟨p, hp, hptc⟩ := hm
        exact ⟨⟨p, by simp [hp], hptc⟩, hl⟩

theorem normalizeFreqs_keys_forall (f : List (ℤ × ℚ)) (P : ℤ → Prop) :
    (∀ p ∈ normalizeFreqs f, P p.1) ↔ ∀ p ∈ f, P p.1 := by
  unfold normalizeFreqs
  split_ifs
  · constructor
    · intro h p hp
      exact h (p.1, p.2 / dictValuesSum f) (List.mem_map_of_mem _ hp)
    · intro h p hp
      obtain ⟨q, hq, rfl⟩ := List.mem_map.mp hp
      exact h q hq
  · exact Iff.rfl

theorem normalizeFreqs_keys_exists (f : List (ℤ × ℚ)) (tc : ℤ) :
    (∃ p ∈ normalizeFreqs f, p.1 = tc) ↔ ∃ p ∈ f, p.1 = tc := by
  unfold normalizeFreqs
  split_ifs
  · constructor
    · rintro ⟨p, hp, htc⟩
      obtain ⟨q, hq, rfl⟩ := List.mem_map.mp hp
      exact ⟨q, hq, htc⟩
    · rintro ⟨p, hp, htc⟩
      exact ⟨(p.1, p.2 / dictValuesSum f), List.mem_map_of_mem _ hp, htc⟩
  · exact Iff.rfl

theorem validate_inputs_main {bankroll : ℚ} {freqs : List (ℤ × ℚ)}
    (edges bets : List (ℤ × ℚ)) (h1 : ¬ bankroll ≤ 0) (h2 : freqs ≠ []) :
    validate_inputs freqs edges bets bankroll =
      (checkKeys edges bets (normalizeFreqs freqs), normalizeFreqs freqs) := by
  unfold validate_inputs
  rw [if_neg h1, if_neg h2]

theorem checkKeys_no_domain (edges bets l : List (ℤ × ℚ)) :
    checkKeys edges bets l ≠ some .mathDomainError := by
  induction l with
  | nil => simp [checkKeys]
  | cons hd tl ih =>
    obtain ⟨tc, f⟩ := hd
    rw [checkKeys]
    cases he : edges.lookup tc with
    | none => simp
    | some e =>
      cases hb : bets.lookup tc with
      | none => simp
      | some b => exact ih

theorem calculate_ror_snd (sd : ℚ) (freqs edges bets : List (ℤ × ℚ))
    (bankroll : ℚ) :
    (calculate_ror sd freqs edges bets bankroll).2 =
      (validate_inputs freqs edges bets bankroll).2 := by
  unfold calculate_ror
  rcases hv : validate_inputs freqs edges bets bankroll with ⟨o, f⟩
  cases o with
  | some e => simp
  | none =>
    simp only
    split_ifs <;> rfl

theorem calculate_ror_fst_of_validate_some (sd : ℚ)
    {freqs edges bets f2 : List (ℤ × ℚ)} {bankroll : ℚ} {err : RoRError}
    (hv : validate_inputs freqs edges bets bankroll = (some err, f2)) :
    calculate_ror sd freqs edges bets bankroll = (.error err, f2) := by
  unfold calculate_ror
  rw [hv]

theorem calculate_ror_fst_ok_iff (sd : ℚ) (freqs edges bets : List (ℤ × ℚ))
    (bankroll : ℚ) :
    (∃ r, (calculate_ror sd freqs edges bets bankroll).1 = .ok r) ↔
      ((validate_inputs freqs edges bets bankroll).1 = none ∧
        0 ≤ calculate_weighted_variance sd
          (validate_inputs freqs edges bets bankroll).2 bets) := by
  unfold calculate_ror
  rcases hv : validate_inputs freqs edges bets bankroll with ⟨o, f⟩
  cases o with
  | some e => simp
  | none =>
    simp only
    by_cases hvar : calculate_weighted_variance sd f bets < 0
    · rw [if_pos hvar]
      constructor
      · rintro ⟨r, hr⟩
        exact absurd hr (by simp)
      · rintro ⟨_, hge⟩
        exact absurd hvar (not_lt.mpr hge)
    · rw [if_neg hvar]
      constructor
      · intro _
        exact ⟨trivial, not_lt.mp hvar⟩
      · intro _
        exact ⟨_, rfl⟩

theorem calculate_ror_fst_error_iff (sd : ℚ) (freqs edges bets : List (ℤ × ℚ))
    (bankroll : ℚ) (err : RoRError) :
    (calculate_ror sd freqs edges bets bankroll).1 = .error err ↔
      ((validate_inputs freqs edges bets bankroll).1 = some err ∨
        (err = .mathDomainError ∧
          (validate_inputs freqs edges bets bankroll).1 = none ∧
          calculate_weighted_variance sd
            (validate_inputs freqs edges bets bankroll).2 bets < 0)) := by
  unfold calculate_ror
  rcases hv : validate_inputs freqs edges bets bankroll with ⟨o, f⟩
  cases o with
  | some e =>
    simp only [Option.some.injEq, reduceCtorEq, false_and, and_false, or_false]
    constructor
    · intro h
      exact Except.error.inj h
    · intro h
      rw [h]
  | none =>
    simp only
    by_cases hvar : calculate_weighted_variance sd f bets < 0
    · rw [if_pos hvar]
      simp only [reduceCtorEq, false_or, hvar, and_true, true_and]
      constructor
      · intro h
        exact (Except.error.inj h).symm
      · intro h
        rw [h]
    · rw [if_neg hvar]
      simp [hvar]

/-! ## Claim C6 -/

/-- C6 counterexample: an input with positive bankroll, a nonempty
frequency map, and every edge and bet-size key present nevertheless
computes no result: its mixed-sign frequencies give weighted variance
-529/4, and calculate_ror raises the math-domain ValueError at the
standard-deviation step (math.sqrt of a negative variance) — so
validation failures are not the only inputs on which the call returns
nothing, refuting the claimed biconditional. -/
theorem c6_counterexample :
    (calculate_ror (23/20) [((1:ℤ), (2:ℚ)), (2, -1)] [((1:ℤ), (0:ℚ)), (2, 0)]
        [((1:ℤ), (0:ℚ)), (2, 10)] 1).1 = .error .mathDomainError ∧
    (0 : ℚ) < 1 ∧
    ([((1:ℤ), (2:ℚ)), (2, -1)] : List (ℤ × ℚ)) ≠ [] ∧
    (∀ p ∈ ([((1:ℤ), (2:ℚ)), (2, -1)] : List (ℤ × ℚ)),
      (([((1:ℤ), (0:ℚ)), (2, 0)] : List (ℤ × ℚ)).lookup p.1).isSome ∧
      (([((1:ℤ), (0:ℚ)), (2, 10)] : List (ℤ × ℚ)).lookup p.1).isSome) :=
  ⟨by with_unfolding_all rfl, by norm_num, by simp,
    by with_unfolding_all decide⟩

/-- C6 amended: calculate_ror raises a validation error exactly when the
bankroll is non-positive, the frequency map is empty, or some frequency
key is missing from the edge map or the bet-size map, and each
missing-entry error carries the offending true-count key; but passing
validation does not guarantee a result: the standard-deviation step
math.sqrt(variance) raises a math-domain ValueError when the weighted
variance of the (normalized) frequencies is negative, so the call
computes a result exactly when validation passes and that variance is
nonnegative. -/
theorem c6_amended_validation (sd : ℚ) (freqs edges bets : List (ℤ × ℚ))
    (bankroll : ℚ) :
    ((∃ r, (calculate_ror sd freqs edges bets bankroll).1 = .ok r) ↔
      (0 < bankroll ∧ freqs ≠ [] ∧
        (∀ p ∈ freqs, (edges.lookup p.1).isSome ∧ (bets.lookup p.1).isSome) ∧
        0 ≤ calculate_weighted_variance sd (normalizeFreqs freqs) bets)) ∧
    (∀ tc, (calculate_ror sd freqs edges bets bankroll).1 =
        .error (.missingEdge tc) →
      (∃ p ∈ freqs, p.1 = tc) ∧ edges.lookup tc = none) ∧
    (∀ tc, (calculate_ror sd freqs edges bets bankroll).1 =
        .error (.missingBetSize tc) →
      (∃ p ∈ freqs, p.1 = tc) ∧ bets.lookup tc = none) ∧
    ((calculate_ror sd freqs edges bets bankroll).1 =
        .error .mathDomainError →
      calculate_weighted_variance sd (normalizeFreqs freqs) bets < 0) := by
  by_cases h1 : bankroll ≤ 0
  · have hv : validate_inputs freqs edges bets bankroll =
        (some .bankrollNotPositive, freqs) := by
      unfold validate_inputs; rw [if_pos h1]
    refine ⟨?_, ?_, ?_, ?_⟩
    · rw [calculate_ror_fst_ok_iff, hv]
      simp only [reduceCtorEq, false_and, false_iff]
      intro hc
      exact absurd hc.1 (by linarith)
    · intro tc h
      rw [calculate_ror_fst_error_iff, hv] at h
      simp at h
    · intro tc h
      rw [calculate_ror_fst_error_iff, hv] at h
      simp at h
    · intro h
      rw [calculate_ror_fst_error_iff, hv] at h
      simp at h
  · by_cases h2 : freqs = []
    · have hv : validate_inputs freqs edges bets bankroll =
          (some .emptyFrequencies, freqs) := by
        unfold validate_inputs; rw [if_neg h1, if_pos h2]
      refine ⟨?_, ?_, ?_, ?_⟩
      · rw [calculate_ror_fst_ok_iff, hv]
        simp only [reduceCtorEq, false_and, false_iff]
        intro hc
        exact absurd h2 hc.2.1
      · intro tc h
        rw [calculate_ror_fst_error_iff, hv] at h
        simp at h
      · intro tc h
        rw [calculate_ror_fst_error_iff, hv] at h
        simp at h
      · intro h
        rw [calculate_ror_fst_error_iff, hv] at h
        simp at h
    · have hv := validate_inputs_main edges bets h1 h2
      refine ⟨?_, ?_, ?_, ?_⟩
      · rw [calculate_ror_fst_ok_iff, hv]
        simp only
        rw [checkKeys_eq_none_iff,
          normalizeFreqs_keys_forall freqs
            (fun k => (edges.lookup k).isSome ∧ (bets.lookup k).isSome)]
        constructor
        · rintro ⟨hk, hvar⟩
          exact ⟨by linarith [not_le.mp h1], h2, hk, hvar⟩
        · rintro ⟨_, _, hk, hvar⟩
          exact ⟨hk, hvar⟩
      · intro tc h
        rw [calculate_ror_fst_error_iff, hv] at h
        simp only [reduceCtorEq, false_and, and_false, or_false] at h
        obtain ⟨hm, hl⟩ := checkKeys_missingEdge h
        exact ⟨(normalizeFreqs_keys_exists freqs tc).mp hm, hl⟩
      · intro tc h
        rw [calculate_ror_fst_error_iff, hv] at h
        simp only [reduceCtorEq, false_and, and_false, or_false] at h
        obtain ⟨hm, hl⟩ := checkKeys_missingBetSize h
        exact ⟨(normalizeFreqs_keys_exists freqs tc).mp hm, hl⟩
      · intro h
        rw [calculate_ror_fst_error_iff, hv] at h
        simp only at h
        rcases h with h | h
        · exact absurd h (checkKeys_no_domain edges bets _)
        · exact h.2.2

/-- C6 witness: the amended characterization applied at a concrete input
whose only frequency key 3 has an edge entry but no bet-size entry: the
missing bet-size error names key 3. -/
theorem c6_witness :
    (∃ p ∈ [((3:ℤ), (1:ℚ))], p.1 = 3) ∧
      [((4:ℤ), (2:ℚ))].lookup (3:ℤ) = none := by
  have h := (c6_amended_validation 1 [((3:ℤ), (1:ℚ))] [((3:ℤ), (1:ℚ))]
    [((4:ℤ), (2:ℚ))] 1).2.2.1
  exact h 3 (by with_unfolding_all rfl)

theorem sum_map_div (l : List (ℤ × ℚ)) (S : ℚ) :
    (l.map fun p => p.2 / S).sum = (l.map Prod.snd).sum / S := by
  induction l with
  | nil => simp
  | cons hd tl ih => simp [ih, add_div]

theorem dictValuesSum_normalize_pos {freqs : List (ℤ × ℚ)}
    (hS : 0 < dictValuesSum freqs) :
    dictValuesSum (freqs.map fun p => (p.1, p.2 / dictValuesSum freqs)) = 1 := by
  have h1 : dictValuesSum (freqs.map fun p => (p.1, p.2 / dictValuesSum freqs)) =
      (freqs.map fun p => p.2 / dictValuesSum freqs).sum := by
    unfold dictValuesSum
    rw [List.map_map]
    rfl
  rw [h1, sum_map_div]
  exact div_self (ne_of_gt hS)

theorem sum_zero_of_nonneg :
    ∀ (l : List ℚ), (∀ x ∈ l, 0 ≤ x) → l.sum = 0 → ∀ x ∈ l, x = 0 := by
  intro l
  induction l with
  | nil => simp
  | cons hd tl ih =>
    intro hn h0 x hx
    have hhd : 0 ≤ hd := hn hd (by simp)
    have htl : 0 ≤ tl.sum := List.sum_nonneg fun y hy => hn y (by simp [hy])
    rw [List.sum_cons] at h0
    rcases List.mem_cons.mp hx with rfl | hx2
    · linarith
    · exact ih (fun y hy => hn y (by simp [hy])) (by linarith) x hx2

theorem calculate_ror_fst_of_validate (sd : ℚ)
    {freqs edges bets f2 : List (ℤ × ℚ)} {bankroll : ℚ}
    (hv : validate_inputs freqs edges bets bankroll = (none, f2))
    (hvar : ¬ calculate_weighted_variance sd f2 bets < 0) :
    (calculate_ror sd freqs edges bets bankroll).1 =
      .ok { expected_value_per_hand := calculate_weighted_ev f2 edges bets
            variance_per_hand := calculate_weighted_variance sd f2 bets
            kelly_fraction :=
              if 0 < calculate_weighted_variance sd f2 bets then
                calculate_weighted_ev f2 edges bets /
                  calculate_weighted_variance sd f2 bets
              else 0
            average_bet_size := (f2.map fun p => p.2 * dget bets p.1).sum
            bankroll_in_units := bankroll } := by
  unfold calculate_ror
  rw [hv]
  simp only
  rw [if_neg hvar]

/-! ## Claim C10 -/

/-- C10 counterexample, two inputs, one per failing conjunct: (a) with
bankroll 0 and a positive-sum frequency map, validation raises before the
normalization step and the caller's dict comes back unchanged (summing to
2, not 1), so the in-place replacement does not happen for every
positive-sum map; (b) a frequency map summing to 0 with mixed-sign values
passes validation unchanged, but its weighted variance is -1587/400, so
the call raises the math-domain error at the standard-deviation step and
yields no expected value at all — in particular not EV 0. -/
theorem c10_counterexample :
    calculate_ror 1 [((1:ℤ), (2:ℚ))] [((1:ℤ), (1:ℚ))] [((1:ℤ), (1:ℚ))] 0 =
      (.error .bankrollNotPositive, [((1:ℤ), (2:ℚ))]) ∧
    dictValuesSum [((1:ℤ), (2:ℚ))] ≠ 1 ∧
    calculate_ror (23/20) [((1:ℤ), (1:ℚ)), (2, -1)] [((1:ℤ), (1:ℚ)), (2, 1)]
        [((1:ℤ), (1:ℚ)), (2, 2)] 1000 =
      (.error .mathDomainError, [((1:ℤ), (1:ℚ)), (2, -1)]) ∧
    dictValuesSum [((1:ℤ), (1:ℚ)), (2, -1)] = 0 :=
  ⟨by with_unfolding_all rfl, by with_unfolding_all decide,
    by with_unfolding_all rfl, by with_unfolding_all rfl⟩

/-- C10 amended: when the bankroll is positive and the supplied frequency
values have a positive sum, every entry of the caller's dict is replaced
by entry/sum during validation (even when a missing-key error follows),
so the dict sums to 1 after the call; a frequency map whose values sum to
0 is passed through unchanged; when additionally the bankroll is
positive, the map is nonempty with all edge and bet keys present, and all
its values are nonnegative (hence all zero), the call returns a result
with expected value 0 rather than raising an error; a sum-0 map with
mixed-sign values, however, can make the weighted variance negative, in
which case the call raises the math-domain error at the
standard-deviation step and yields no result. -/
theorem c10_amended_in_place_normalization (sd : ℚ)
    (freqs edges bets : List (ℤ × ℚ)) (bankroll : ℚ) :
    (0 < bankroll → 0 < dictValuesSum freqs →
      (calculate_ror sd freqs edges bets bankroll).2 =
        freqs.map (fun p => (p.1, p.2 / dictValuesSum freqs)) ∧
      dictValuesSum (calculate_ror sd freqs edges bets bankroll).2 = 1) ∧
    (dictValuesSum freqs = 0 →
      (calculate_ror sd freqs edges bets bankroll).2 = freqs) ∧
    (dictValuesSum freqs = 0 → 0 < bankroll → freqs ≠ [] →
      (∀ p ∈ freqs, (edges.lookup p.1).isSome ∧ (bets.lookup p.1).isSome) →
      (∀ p ∈ freqs, 0 ≤ p.2) →
      ∃ r, (calculate_ror sd freqs edges bets bankroll).1 = .ok r ∧
        r.expected_value_per_hand = 0) ∧
    (dictValuesSum freqs = 0 → 0 < bankroll → freqs ≠ [] →
      (∀ p ∈ freqs, (edges.lookup p.1).isSome ∧ (bets.lookup p.1).isSome) →
      calculate_weighted_variance sd freqs bets < 0 →
      (calculate_ror sd freqs edges bets bankroll).1 =
        .error .mathDomainError) := by
  refine ⟨?_, ?_, ?_, ?_⟩
  · intro hb hS
    have hne : freqs ≠ [] := by
      intro h0
      rw [h0] at hS
      simp [dictValuesSum] at hS
    have hnorm : normalizeFreqs freqs =
        freqs.map fun p => (p.1, p.2 / dictValuesSum freqs) := by
      unfold normalizeFreqs
      rw [if_pos hS]
    rw [calculate_ror_snd, validate_inputs_main edges bets (not_le.mpr hb) hne]
    exact ⟨hnorm, by rw [hnorm]; exact dictValuesSum_normalize_pos hS⟩
  · intro hS0
    have hnorm : normalizeFreqs freqs = freqs := by
      unfold normalizeFreqs
      rw [if_neg (by rw [hS0]; exact lt_irrefl 0)]
    rw [calculate_ror_snd]
    unfold validate_inputs
    split_ifs <;> simp [hnorm]
  · intro hS0 hb hne hkeys hnn
    have hnorm : normalizeFreqs freqs = freqs := by
      unfold normalizeFreqs
      rw [if_neg (by rw [hS0]; exact lt_irrefl 0)]
    have hk : checkKeys edges bets (normalizeFreqs freqs) = none := by
      rw [hnorm, checkKeys_eq_none_iff]
      exact hkeys
    have hv : validate_inputs freqs edges bets bankroll = (none, freqs) := by
      rw [validate_inputs_main edges bets (not_le.mpr hb) hne, hk, hnorm]
    have hzero : ∀ p ∈ freqs, p.2 = 0 := by
      intro p hp
      exact sum_zero_of_nonneg (freqs.map Prod.snd)
        (by rintro x hx
            obtain ⟨q, hq, rfl⟩ := List.mem_map.mp hx
            exact hnn q hq)
        hS0 p.2 (List.mem_map_of_mem Prod.snd hp)
    have hvar0 : calculate_weighted_variance sd freqs bets = 0 := by
      unfold calculate_weighted_variance
      apply List.sum_eq_zero
      intro x hx
      obtain ⟨q, hq, rfl⟩ := List.mem_map.mp hx
      rw [hzero q hq]
      ring
    refine ⟨_, calculate_ror_fst_of_validate sd hv (by rw [hvar0]; norm_num), ?_⟩
    show calculate_weighted_ev freqs edges bets = 0
    unfold calculate_weighted_ev
    apply List.sum_eq_zero
    intro x hx
    obtain ⟨q, hq, rfl⟩ := List.mem_map.mp hx
    rw [hzero q hq]
    ring
  · intro hS0 hb hne hkeys hvar
    have hnorm : normalizeFreqs freqs = freqs := by
      unfold normalizeFreqs
      rw [if_neg (by rw [hS0]; exact lt_irrefl 0)]
    have hk : checkKeys edges bets (normalizeFreqs freqs) = none := by
      rw [hnorm, checkKeys_eq_none_iff]
      exact hkeys
    have hv : validate_inputs freqs edges bets bankroll = (none, freqs) := by
      rw [validate_inputs_main edges bets (not_le.mpr hb) hne, hk, hnorm]
    unfold calculate_ror
    rw [hv]
    simp only
    rw [if_pos hvar]

/-- C10 witness: the amended normalization statement applied at a concrete
positive-sum input (one key, value 2, bankroll 1): the returned dict is
the normalized map and sums to 1. -/
theorem c10_witness :
    (calculate_ror 1 [((0:ℤ), (2:ℚ))] [] [] 1).2 =
      [((0:ℤ), (2:ℚ))].map
        (fun p => (p.1, p.2 / dictValuesSum [((0:ℤ), (2:ℚ))])) ∧
    dictValuesSum (calculate_ror 1 [((0:ℤ), (2:ℚ))] [] [] 1).2 = 1 :=
  (c10_amended_in_place_normalization 1 [((0:ℤ), (2:ℚ))] [] [] 1).1
    (by norm_num) (by with_unfolding_all decide)

theorem calculate_ror_bankroll {sd bankroll : ℚ}
    {freqs edges bets : List (ℤ × ℚ)} {r : RoRCore}
    (h : (calculate_ror sd freqs edges bets bankroll).1 = .ok r) :
    r.bankroll_in_units = bankroll := by
  unfold calculate_ror at h
  rcases hv : validate_inputs freqs edges bets bankroll with ⟨o, f⟩
  rw [hv] at h
  cases o with
  | some e => simp at h
  | none =>
    simp only at h
    by_cases hvar : calculate_weighted_variance sd f bets < 0
    · rw [if_pos hvar] at h
      simp at h
    · rw [if_neg hvar] at h
      obtain rfl := (Except.ok.inj h).symm
      rfl

/-! ## Claim C1 -/

/-- C1 counterexample: at a validated input with expected value -1/10
(negative) and positive variance 529/4, calculate_ror takes the
exponential branch and risk_of_ruin_exponential is exp(800/529), which is
not 1.0 — refuting the claim that every input with EV at most 0 yields
exactly 1.0. -/
theorem c1_counterexample :
    (calculate_ror (23/20) [((1:ℤ), (1:ℚ))] [((1:ℤ), (-1/100 : ℚ))]
        [((1:ℤ), (10:ℚ))] 1000).1 =
      .ok { expected_value_per_hand := -1/10
            variance_per_hand := 529/4
            kelly_fraction := -2/2645
            average_bet_size := 10
            bankroll_in_units := 1000 } ∧
    (-1/10 : ℚ) ≤ 0 ∧
    risk_of_ruin_exponential
      { expected_value_per_hand := -1/10, variance_per_hand := 529/4,
        kelly_fraction := -2/2645, average_bet_size := 10,
        bankroll_in_units := 1000 } ≠ 1 := by
  refine ⟨by with_unfolding_all rfl, by norm_num, ?_⟩
  unfold risk_of_ruin_exponential
  dsimp only
  rw [if_pos (by norm_num)]
  intro hcontra
  rw [Real.exp_eq_one_iff] at hcontra
  norm_num at hcontra

/-- C1 amended: for every validated input, risk_of_ruin_exponential equals
exp(-2 bankroll EV / variance) whenever variance > 0 and EV is nonzero
(also for negative EV, where it exceeds 1), equals 1.0 when EV is at most
0 and the exponential branch is not taken (variance at most 0 or EV = 0),
and equals 0.0 when EV > 0 and variance is at most 0; it is not 1.0 for
every input with EV at most 0. -/
theorem c1_amended_ror_branches (sd : ℚ) (freqs edges bets : List (ℤ × ℚ))
    (bankroll : ℚ) (r : RoRCore)
    (h : (calculate_ror sd freqs edges bets bankroll).1 = .ok r) :
    (0 < r.variance_per_hand ∧ r.expected_value_per_hand ≠ 0 →
      risk_of_ruin_exponential r =
        Real.exp ((((-2) * bankroll * r.expected_value_per_hand /
          r.variance_per_hand : ℚ) : ℝ))) ∧
    (r.expected_value_per_hand ≤ 0 ∧
        (r.variance_per_hand ≤ 0 ∨ r.expected_value_per_hand = 0) →
      risk_of_ruin_exponential r = 1) ∧
    (0 < r.expected_value_per_hand ∧ r.variance_per_hand ≤ 0 →
      risk_of_ruin_exponential r = 0) := by
  have hbr : r.bankroll_in_units = bankroll := calculate_ror_bankroll h
  refine ⟨?_, ?_, ?_⟩
  · intro hc
    unfold risk_of_ruin_exponential
    rw [if_pos hc, hbr]
  · rintro ⟨hev, hor⟩
    have hnc : ¬(0 < r.variance_per_hand ∧ r.expected_value_per_hand ≠ 0) := by
      rcases hor with h1 | h2
      · intro hc; linarith [hc.1]
      · intro hc; exact hc.2 h2
    unfold risk_of_ruin_exponential
    rw [if_neg hnc, if_pos hev]
  · rintro ⟨hev, hvar⟩
    have hnc : ¬(0 < r.variance_per_hand ∧ r.expected_value_per_hand ≠ 0) :=
      fun hc => by linarith [hc.1]
    unfold risk_of_ruin_exponential
    rw [if_neg hnc, if_neg (not_le.mpr hev)]

/-- C1 witness: the amended branch description applied at the concrete
negative-EV input of the counterexample: the exponential branch fires. -/
theorem c1_witness :
    risk_of_ruin_exponential
      { expected_value_per_hand := -1/10, variance_per_hand := 529/4,
        kelly_fraction := -2/2645, average_bet_size := 10,
        bankroll_in_units := 1000 } =
      Real.exp ((((-2) * (1000:ℚ) * (-1/10) / (529/4) : ℚ) : ℝ)) :=
  (c1_amended_ror_branches (23/20) [((1:ℤ), (1:ℚ))] [((1:ℤ), (-1/100 : ℚ))]
      [((1:ℤ), (10:ℚ))] 1000
      { expected_value_per_hand := -1/10, variance_per_hand := 529/4,
        kelly_fraction := -2/2645, average_bet_size := 10,
        bankroll_in_units := 1000 }
      (by with_unfolding_all rfl)).1 ⟨by norm_num, by norm_num⟩

theorem calculate_weighted_ev_map_div (freqs edges bets : List (ℤ × ℚ)) (S : ℚ) :
    calculate_weighted_ev (freqs.map fun p => (p.1, p.2 / S)) edges bets =
      (freqs.map fun p => p.2 / S * dget edges p.1 * dget bets p.1).sum := by
  unfold calculate_weighted_ev
  rw [List.map_map]
  rfl

theorem calculate_weighted_variance_map_div (sd : ℚ)
    (freqs bets : List (ℤ × ℚ)) (S : ℚ) :
    calculate_weighted_variance sd (freqs.map fun p => (p.1, p.2 / S)) bets =
      (freqs.map fun p => p.2 / S * (dget bets p.1 * sd) ^ 2).sum := by
  unfold calculate_weighted_variance
  rw [List.map_map]
  rfl

theorem exp_400_529_bounds :
    (213003/100000 : ℝ) ≤ Real.exp (400/529) ∧
      Real.exp (400/529 : ℝ) ≤ 213006/100000 := by
  have hx : |(400/529 : ℝ)| ≤ 1 := by
    rw [abs_of_nonneg (by norm_num : (0:ℝ) ≤ 400/529)]
    norm_num
  have hb := @Real.exp_bound (400/529 : ℝ) hx 8 (by norm_num)
  rw [abs_of_nonneg (by norm_num : (0:ℝ) ≤ 400/529), abs_le] at hb
  obtain ⟨hb1, hb2⟩ := hb
  norm_num [Finset.sum_range_succ, Finset.sum_range_zero, Nat.factorial]
    at hb1 hb2
  constructor <;> linarith

theorem exp_neg_800_529_near :
    |Real.exp (-(800/529 : ℝ)) - 2203/10000| < 1/1000 := by
  obtain ⟨hlo, hhi⟩ := exp_400_529_bounds
  have hEeq : Real.exp (800/529 : ℝ) =
      Real.exp (400/529) * Real.exp (400/529) := by
    rw [← Real.exp_add]
    norm_num
  have hpos : (0:ℝ) < Real.exp (400/529) := Real.exp_pos _
  have hE1 : (4537/1000 : ℝ) ≤ Real.exp (800/529) := by
    rw [hEeq]; nlinarith
  have hE2 : Real.exp (800/529 : ℝ) ≤ 45372/10000 := by
    rw [hEeq]; nlinarith
  have hFpos : (0:ℝ) < Real.exp (-(800/529 : ℝ)) := Real.exp_pos _
  have hFE : Real.exp (-(800/529 : ℝ)) * Real.exp (800/529 : ℝ) = 1 := by
    rw [← Real.exp_add]
    norm_num
  rw [abs_lt]
  constructor
  · nlinarith [hFE, hE2, hFpos.le]
  · nlinarith [hFE, hE1, hFpos.le]

/-! ## Claim C5 -/

/-- C5: for every validated input with a positive frequency sum, the
returned expected value per hand is the sum over true counts of
(normalized) frequency times edge times bet size, and the returned
variance per hand is the sum of (normalized) frequency times
(bet size times base_sd_per_unit) squared (the sums range over the
caller's input map, whose values the validation step divides by their
sum); and at the concrete scenario (frequencies {1: 1.0}, edges
{1: 0.01}, bets {1: 10}, bankroll 1000, base sd 1.15 = 23/20) the result
is EV 1/10, variance 529/4 = 132.25, and risk of ruin
exp(-2 1000 (1/10) / (529/4)) = exp(-800/529), which is within 1/1000 of
0.2203. -/
theorem c5_weighted_ev_variance :
    (∀ (sd : ℚ) (freqs edges bets : List (ℤ × ℚ)) (bankroll : ℚ) (r : RoRCore),
      (calculate_ror sd freqs edges bets bankroll).1 = .ok r →
      0 < dictValuesSum freqs →
      r.expected_value_per_hand =
        (freqs.map fun p =>
          p.2 / dictValuesSum freqs * dget edges p.1 * dget bets p.1).sum ∧
      r.variance_per_hand =
        (freqs.map fun p =>
          p.2 / dictValuesSum freqs * (dget bets p.1 * sd) ^ 2).sum) ∧
    (calculate_ror (23/20) [((1:ℤ), (1:ℚ))] [((1:ℤ), (1/100 : ℚ))]
        [((1:ℤ), (10:ℚ))] 1000).1 =
      .ok { expected_value_per_hand := 1/10, variance_per_hand := 529/4,
            kelly_fraction := 2/2645, average_bet_size := 10,
            bankroll_in_units := 1000 } ∧
    risk_of_ruin_exponential
      { expected_value_per_hand := 1/10, variance_per_hand := 529/4,
        kelly_fraction := 2/2645, average_bet_size := 10,
        bankroll_in_units := 1000 } = Real.exp (-(800/529 : ℝ)) ∧
    |Real.exp (-(800/529 : ℝ)) - 2203/10000| < 1/1000 := by
  refine ⟨?_, by with_unfolding_all rfl, ?_, exp_neg_800_529_near⟩
  · intro sd freqs edges bets bankroll r h hS
    have hb : ¬ bankroll ≤ 0 := by
      intro hb0
      have hv : validate_inputs freqs edges bets bankroll =
          (some .bankrollNotPositive, freqs) := by
        unfold validate_inputs
        rw [if_pos hb0]
      have he := calculate_ror_fst_of_validate_some sd hv
      rw [he] at h
      simp at h
    have hne : freqs ≠ [] := by
      intro h0
      rw [h0] at hS
      simp [dictValuesSum] at hS
    have hnorm : normalizeFreqs freqs =
        freqs.map fun p => (p.1, p.2 / dictValuesSum freqs) := by
      unfold normalizeFreqs
      rw [if_pos hS]
    cases hk : checkKeys edges bets (normalizeFreqs freqs) with
    | some err =>
      have hv2 : validate_inputs freqs edges bets bankroll =
          (some err, normalizeFreqs freqs) := by
        rw [validate_inputs_main edges bets hb hne, hk]
      have he := calculate_ror_fst_of_validate_some sd hv2
      rw [he] at h
      simp at h
    | none =>
      have hv : validate_inputs freqs edges bets bankroll =
          (none, normalizeFreqs freqs) := by
        rw [validate_inputs_main edges bets hb hne, hk]
      unfold calculate_ror at h
      rw [hv] at h
      simp only at h
      by_cases hvar :
          calculate_weighted_variance sd (normalizeFreqs freqs) bets < 0
      · rw [if_pos hvar] at h
        simp at h
      · rw [if_neg hvar] at h
        obtain rfl := (Except.ok.inj h).symm
        rw [hnorm]
        exact ⟨calculate_weighted_ev_map_div freqs edges bets _,
          calculate_weighted_variance_map_div sd freqs bets _⟩
  · unfold risk_of_ruin_exponential
    dsimp only
    rw [if_pos (by norm_num)]
    have harg : ((((-2) * (1000:ℚ) * (1/10) / (529/4)) : ℚ) : ℝ) =
        -(800/529 : ℝ) := by
      norm_num
    rw [harg]

/-- C5 witness: the general formula applied at a concrete input with
frequency sum 2 (one key, frequency 2, edge 1, bet 3, base sd 1): the
expected value is the normalized sum 3 and the variance 9. -/
theorem c5_witness :
    ({ expected_value_per_hand := 3, variance_per_hand := 9,
       kelly_fraction := 1/3, average_bet_size := 3,
       bankroll_in_units := 5 } : RoRCore).expected_value_per_hand =
      ([((0:ℤ), (2:ℚ))].map fun p =>
        p.2 / dictValuesSum [((0:ℤ), (2:ℚ))] * dget [((0:ℤ), (1:ℚ))] p.1 *
          dget [((0:ℤ), (3:ℚ))] p.1).sum ∧
    ({ expected_value_per_hand := 3, variance_per_hand := 9,
       kelly_fraction := 1/3, average_bet_size := 3,
       bankroll_in_units := 5 } : RoRCore).variance_per_hand =
      ([((0:ℤ), (2:ℚ))].map fun p =>
        p.2 / dictValuesSum [((0:ℤ), (2:ℚ))] *
          (dget [((0:ℤ), (3:ℚ))] p.1 * 1) ^ 2).sum :=
  c5_weighted_ev_variance.1 1 [((0:ℤ), (2:ℚ))] [((0:ℤ), (1:ℚ))]
    [((0:ℤ), (3:ℚ))] 5
    { expected_value_per_hand := 3, variance_per_hand := 9,
      kelly_fraction := 1/3, average_bet_size := 3, bankroll_in_units := 5 }
    (by with_unfolding_all rfl) (by with_unfolding_all decide)
